import Mathlib

/-!
Verification development for the mnr library (src/mnr.py): a rule-based
rewriter that turns manufacturer-submitted pseudo-regular-expressions for
HVAC model numbers into an ordered sequence of pattern chunks, plus a
partial ("reverse") matcher comparing a possibly truncated candidate
string against the compiled chunk sequence.

Strings are embedded as List Char.  Python regular-expression operations
are embedded by deterministic parsing functions that are proved (in the
lemmas below) or argued (in the doc comments) to coincide with the
leftmost/greedy semantics of the concrete patterns the source uses.
-/

/-- Embeds the regex class backslash-w for the ASCII inputs the library
processes: letters, digits and the underscore. -/
def isWordChar (c : Char) : Bool :=
  c.isAlpha || c.isDigit || c == '_'

/-- One compiled fragment: its rewritten pattern text and the minimum
size field (the source stores -1 as a sentinel for unbounded chunks),
mirroring the PatternChunk namedtuple. -/
structure PatternChunk where
  pattern : List Char
  size : Int
deriving DecidableEq, Repr

/-- Renders an alternation group: opening paren, the options joined by
vertical bars, closing paren (the source builds the same text with
a format string and a join). -/
def joinSep (sep : Char) : List (List Char) → List Char
  | [] => []
  | [o] => o
  | o :: o2 :: os => o ++ sep :: joinSep sep (o2 :: os)

def mkAlt (options : List (List Char)) : List Char :=
  '(' :: joinSep '|' options ++ [')']

/-- Splits a list at every occurrence of the separator character,
keeping empty segments, as the Python str.split does. -/
def splitSep (sep : Char) : List Char → List (List Char)
  | [] => [[]]
  | c :: t =>
    if c = sep then [] :: splitSep sep t
    else
      match splitSep sep t with
      | [] => [[c]]
      | g :: gs => (c :: g) :: gs

/-- Minimum of a list of integers; the source only ever applies min to a
non-empty list, the empty case is an unreachable default. -/
def listMin : List Int → Int
  | [] => 0
  | x :: xs => xs.foldl min x

/-- The run of comma-terminated groups of 1-3 word characters at the
front of the cursor.  This embeds the match of the anchored pattern
(non-capturing group of 1-3 word chars followed by a comma, one or more
times): the matched span splits at its commas into exactly these groups,
and the match is the greedy, maximal such run. -/
def parseGroups (s : List Char) : List (List Char) :=
  ((splitSep ',' s).dropLast).takeWhile fun g =>
    !g.isEmpty && g.length ≤ 3 && g.all isWordChar

/-- Embeds the full-string match of pattern1_sub1: the entire cursor is
one group of 1-2 word characters, a single comma, and a second group of
1-2 word characters. -/
def sub1 (s : List Char) : Bool :=
  let a := s.takeWhile isWordChar
  let b := s.drop (a.length + 1)
  1 ≤ a.length && a.length ≤ 2 && s.get? a.length = some ',' &&
    !b.isEmpty && b.length ≤ 2 && b.all isWordChar

/-- Ruleset 1 of transform: loose option groups not encapsulated in
parens.  The matched prefix is the run of comma-terminated groups; the
options are the split of that prefix at its commas (whose final entry is
the empty string after the trailing comma) with the final entry replaced
by the next slice of the cursor of the first option's length, or by the
whole rest of the cursor when pattern1_sub1 matches the cursor. -/
def rule1 (s : List Char) : Option (PatternChunk × List Char) :=
  let gs := parseGroups s
  if gs.isEmpty then none
  else
    let b := (gs.map List.length).sum + gs.length
    let o1 := gs.headD []
    if sub1 s then
      let options := gs ++ [s.drop b]
      some (⟨mkAlt options, listMin (options.map fun o => (o.length : Int))⟩, [])
    else
      let options := gs ++ [(s.drop b).take o1.length]
      some (⟨mkAlt options, listMin (options.map fun o => (o.length : Int))⟩,
            s.drop (b + o1.length))

/-- Ruleset 2 of transform: the longest leading run of word characters
becomes a literal chunk whose size is its length. -/
def rule2 (s : List Char) : Option (PatternChunk × List Char) :=
  let w := s.takeWhile isWordChar
  if w.isEmpty then none
  else some (⟨w, (w.length : Int)⟩, s.drop w.length)

/-- No two adjacent commas (part of the characterization of the
pattern3 match). -/
def noCC : List Char → Bool
  | [] => true
  | [_] => true
  | a :: b :: t => !(a = ',' && b = ',') && noCC (b :: t)

/-- Ruleset 3 of transform: a parenthesized option group.  The anchored
pattern is an opening paren, one or more groups of 1-3 word characters
each followed by an optional comma, and a closing paren.  A string over
word characters and commas is decomposable into such groups exactly when
it is non-empty, starts with a word character and has no two adjacent
commas; the maximal word-or-comma run after the paren must therefore be
followed by the closing paren.  The size is the length of the matched
text up to its first comma minus one; the emitted pattern replaces every
comma with a vertical bar. -/
def rule3 (s : List Char) : Option (PatternChunk × List Char) :=
  if s.head? = some '(' then
    let rest := s.tail
    let inner := rest.takeWhile fun c => isWordChar c || c == ','
    if (rest.drop inner.length).head? = some ')' && !inner.isEmpty &&
        isWordChar (inner.headD ' ') && noCC inner then
      let matched := '(' :: inner ++ [')']
      some (⟨matched.map (fun c => if c = ',' then '|' else c),
             ((matched.takeWhile fun c => c ≠ ',').length : Int) - 1⟩,
            rest.drop (inner.length + 1))
    else none
  else none

/-- Ruleset 4 of transform: a leading run of asterisks.  When the entire
cursor is a single asterisk it becomes the open one-or-more wildcard;
otherwise each asterisk becomes a single-character wildcard. -/
def rule4 (s : List Char) : Option (PatternChunk × List Char) :=
  let stars := s.takeWhile fun c => c == '*'
  let n := stars.length
  if n = 0 then none
  else if s = ['*'] then some (⟨['\\', 'w', '+'], 1⟩, [])
  else some (⟨(List.replicate n ['\\', 'w']).flatten, (n : Int)⟩, s.drop n)

/-- Ruleset 5 of transform: a leading run of hyphens, each rewritten to
an optional hyphen; the size is the -1 sentinel. -/
def rule5 (s : List Char) : Option (PatternChunk × List Char) :=
  let hs := s.takeWhile fun c => c == '-'
  let n := hs.length
  if n = 0 then none
  else some (⟨(List.replicate n ['-', '?']).flatten, -1⟩, s.drop n)

/-- Ruleset 6 of transform: the literal three-character group
paren-asterisk-paren becomes a bounded wildcard of 1 to 5 word
characters; the size is the -1 sentinel. -/
def rule6 (s : List Char) : Option (PatternChunk × List Char) :=
  if s.take 3 = ['(', '*', ')'] then
    some (⟨['(', '\\', 'w', '{', '1', ',', '5', '}', ')'], -1⟩, s.drop 3)
  else none

/-- One pass over the six rules in the fixed priority order; the first
rule that consumes wins. -/
def stepRule (s : List Char) : Option (PatternChunk × List Char) :=
  match rule1 s with
  | some r => some r
  | none =>
    match rule2 s with
    | some r => some r
    | none =>
      match rule3 s with
      | some r => some r
      | none =>
        match rule4 s with
        | some r => some r
        | none =>
          match rule5 s with
          | some r => some r
          | none => rule6 s

/-- Replaces slash by comma (applied to the whole string after rule 0). -/
def slashToComma (c : Char) : Char :=
  if c = '/' then ',' else c

/-- A 2-or-3-digit piece as matched by the rule-0 pattern. -/
def ddOK (d : List Char) : Prop :=
  d.all Char.isDigit = true ∧ 2 ≤ d.length ∧ d.length ≤ 3

/-- Match of the rule-0 pattern (2-3 digits, slash, 2-3 digits) at the
front of the string, with the greedy preference for 3 digits over 2 on
each side; returns the two digit groups and the rest after the second
group. -/
def matchDDat (s : List Char) (a : Nat) : Option (List Char × List Char × List Char) :=
  let t := s.drop (a + 1)
  let m := (t.takeWhile Char.isDigit).length
  if 3 ≤ m then some (s.take a, t.take 3, t.drop 3)
  else if 2 ≤ m then some (s.take a, t.take 2, t.drop 2)
  else none

def matchDD (s : List Char) : Option (List Char × List Char × List Char) :=
  if 3 ≤ (s.takeWhile Char.isDigit).length ∧ s.get? 3 = some '/' then matchDDat s 3
  else if 2 ≤ (s.takeWhile Char.isDigit).length ∧ s.get? 2 = some '/' then
    matchDDat s 2
  else none

/-- Leftmost search for the rule-0 pattern: the first position whose
front matches wins; returns the text to the left of the match, the two
digit groups and the text to the right. -/
def searchDD : List Char → Option (List Char × List Char × List Char × List Char)
  | [] => none
  | c :: t =>
    match matchDD (c :: t) with
    | some (d1, d2, r) => some ([], d1, d2, r)
    | none => (searchDD t).map fun x => (c :: x.1, x.2.1, x.2.2.1, x.2.2.2)

/-- The preprocessing of transform: truncate at the first plus sign
(only the primary option matters), rewrite the first nested
digits-slash-digits occurrence into a parenthesized comma pair (rule 0),
then replace every remaining slash with a comma. -/
def preprocess (s : List Char) : List Char :=
  let t := s.takeWhile fun c => c ≠ '+'
  match searchDD t with
  | none => t.map slashToComma
  | some (l, d1, d2, r) =>
    (l ++ '(' :: (d1 ++ ',' :: (d2 ++ [')'])) ++ r).map slashToComma

/-- The error kinds transform can raise: missing or empty input at
compile time, and the malformed-pattern parse failure of the rule loop. -/
inductive MnrError where
  | invalidInput
  | malformedPattern
deriving DecidableEq, Repr

/-- The main rewrite loop of transform with its break counter, fuel-fed
for structural recursion (transform supplies fuel that the adequacy
lemmas below show is never exhausted).  Each iteration tries the six
rules in priority order; a success appends one chunk and resets the
counter (the source sets it to 0 and the trailing increment makes it 1);
a failure raises once the counter exceeds 2. -/
def loopF : Nat → List Char → List PatternChunk → Nat → Option (List PatternChunk)
  | 0, _, _, _ => none
  | f + 1, s, acc, bc =>
    if s.isEmpty then some acc
    else
      match stepRule s with
      | some (c, s') => loopF f s' (acc ++ [c]) 1
      | none => if bc > 2 then none else loopF f s acc (bc + 1)

/-- transform: preprocess the raw model number and run the rule loop.
A missing or empty model number raises before any parsing (the source
raises AttributeError there, distinct from the parse failure). -/
def transform (model_number : Option String) : Except MnrError (List PatternChunk) :=
  match model_number with
  | none => .error .invalidInput
  | some raw =>
    if raw = "" then .error .invalidInput
    else
      let s := preprocess raw.toList
      match loopF (s.length + 5) s [] 0 with
      | some cs => .ok cs
      | none => .error .malformedPattern

/-- The full canonical pattern: the ordered concatenation of every
chunk's pattern text. -/
def transformPattern (m : Option String) : Except MnrError (List Char) :=
  (transform m).map fun cs => (cs.map PatternChunk.pattern).flatten

/-- The check in is_match for a pure literal chunk: the anchored
full-string pattern of one-or-more word characters. -/
def isPureWordPat (p : List Char) : Bool :=
  !p.isEmpty && p.all isWordChar

/-- The check in is_match for an alternation chunk: the anchored
full-string pattern of an opening paren, one or more word runs each
followed by a bar, an optional final word run, and a closing paren. -/
def isOptionsGroupPat (p : List Char) : Bool :=
  match p with
  | '(' :: rest =>
    if rest.getLast? = some ')' then
      let parts := splitSep '|' rest.dropLast
      2 ≤ parts.length &&
        parts.dropLast.all (fun q => !q.isEmpty && q.all isWordChar) &&
        (parts.getLastD []).all isWordChar
    else false
  | _ => false

/-- A character that the embedded matcher treats as a regex literal:
word characters, hyphen and comma are literals in the patterns the
rewriter emits. -/
def litSafeChar (c : Char) : Bool :=
  isWordChar c || c == '-' || c == ','

/-- The shapes a rewritten chunk pattern can take, used to embed the
anchored match of a chunk pattern against the candidate remainder.  The
six rules only emit literal word runs, alternation groups of literal
options, single-character wildcards, the open wildcard, optional
hyphens, and the bounded 1-5 wildcard; anything else (for example an
alternation whose final option picked up special characters from the
cursor, which the source regex engine rejects at match time and the bare
except of is_match turns into a non-match) is treated as failing. -/
inductive ChunkShape where
  | lit (l : List Char)
  | alt (options : List (List Char))
  | plusW
  | nw (n : Nat)
  | optHyph (n : Nat)
  | bounded15
  | invalid

/-- Recognizes a pattern that is n copies of the single-character
wildcard (backslash-w). -/
def repNW : List Char → Option Nat
  | [] => some 0
  | '\\' :: 'w' :: t => (repNW t).map (· + 1)
  | _ => none

/-- Recognizes a pattern that is n copies of the optional hyphen. -/
def repHyph : List Char → Option Nat
  | [] => some 0
  | '-' :: '?' :: t => (repHyph t).map (· + 1)
  | _ => none

def classify (p : List Char) : ChunkShape :=
  if !p.isEmpty && p.all isWordChar then .lit p
  else if p = ['\\', 'w', '+'] then .plusW
  else
    match repNW p with
    | some n => .nw n
    | none =>
      match repHyph p with
      | some n => .optHyph n
      | none =>
        if p = ['(', '\\', 'w', '{', '1', ',', '5', '}', ')'] then .bounded15
        else
          match p with
          | '(' :: rest =>
            if rest.getLast? = some ')' then
              let options := splitSep '|' rest.dropLast
              if options.all (fun o => o.all litSafeChar) then .alt options
              else .invalid
            else .invalid
          | _ => .invalid

/-- The first option (in left-to-right order, as the regex engine tries
alternatives) that is a prefix of the remainder; returns its length. -/
def firstAltLen (options : List (List Char)) (mn : List Char) : Option Nat :=
  match options with
  | [] => none
  | o :: os => if o.isPrefixOf mn then some o.length else firstAltLen os mn

/-- Embeds the anchored match of a chunk pattern against the candidate
remainder, returning the number of characters the greedy match consumes
(none embeds both a failed match and a pattern error, which the source
treats identically through its bare except). -/
def matchChunk (p mn : List Char) : Option Nat :=
  match classify p with
  | .lit l => if l.isPrefixOf mn then some l.length else none
  | .alt options => firstAltLen options mn
  | .plusW =>
    let k := (mn.takeWhile isWordChar).length
    if k = 0 then none else some k
  | .nw n => if n ≤ mn.length ∧ (mn.take n).all isWordChar then some n else none
  | .optHyph n => some (min n (mn.takeWhile fun c => c == '-').length)
  | .bounded15 =>
    let k := min 5 (mn.takeWhile isWordChar).length
    if k = 0 then none else some k
  | .invalid => none

/-- Embeds the anchored match of the candidate remainder, used as a
pattern, against a pure-literal chunk text (the reverse match of
is_match).  Word characters, hyphens and commas are literals and the dot
matches any character; a remainder containing any other regex
metacharacter is treated as failing, which is what the bare except of
is_match produces for the inputs in this library's domain. -/
def reMatchQ (q t : List Char) : Bool :=
  match q with
  | [] => true
  | c :: q' =>
    if litSafeChar c then
      match t with
      | [] => false
      | d :: t' => c == d && reMatchQ q' t'
    else if c = '.' then
      match t with
      | [] => false
      | _ :: t' => reMatchQ q' t'
    else false

/-- The chunk-walking loop of is_match over the remainder of the
candidate.  When a chunk's size exceeds the remaining length: a pure
literal chunk resolves by the reverse match of the remainder against the
chunk text; an alternation chunk resolves by slicing the tail of each
option off by the remainder's length (the source slices with a negative
stop index) and testing membership; any other chunk breaks out of the
loop, which then answers true. -/
def isMatchLoop : List PatternChunk → List Char → Bool
  | [], _ => true
  | ch :: rest, mn =>
    if (mn.length : Int) < ch.size then
      if isPureWordPat ch.pattern then reMatchQ mn ch.pattern
      else if isOptionsGroupPat ch.pattern then
        let options := splitSep '|' ((ch.pattern.drop 1).dropLast)
        let truncated := options.map fun o =>
          if mn.length = 0 then [] else o.take (o.length - mn.length)
        truncated.contains mn
      else true
    else
      match matchChunk ch.pattern mn with
      | some k => isMatchLoop rest (mn.drop k)
      | none => false

/-- is_match on a compiled chunk sequence: a missing or empty candidate
answers false before the loop runs. -/
def isMatchO (cs : List PatternChunk) (candidate : Option (List Char)) : Bool :=
  match candidate with
  | none => false
  | some [] => false
  | some mn => isMatchLoop cs mn

/-- The instance state of a compiled ModelNumberRegex that is_match can
see: the chunk tuple, the joined pattern text and the stored raw model
number. -/
structure MnrState where
  chunks : List PatternChunk
  pattern : List Char
  model_number : Option String
deriving DecidableEq

/-- is_match as a state-passing function on the instance: the method
reads the chunk tuple and assigns no instance attribute, so the state
passes through unchanged alongside the boolean result. -/
def isMatchS (st : MnrState) (candidate : Option (List Char)) : Bool × MnrState :=
  (isMatchO st.chunks candidate, st)

/-! ### Generic list helpers -/

theorem takeWhile_append_of_break {α : Type} {p : α → Bool} {g t : List α} {c : α}
    (hg : ∀ x ∈ g, p x = true) (hc : p c = false) :
    (g ++ c :: t).takeWhile p = g := by
  induction g with
  | nil => simp [List.takeWhile_cons, hc]
  | cons a g ih =>
    have ha : p a = true := hg a (by simp)
    simp only [List.cons_append, List.takeWhile_cons, ha, if_true]
    simp only [List.nil_append] at ih ⊢
    rw [ih fun x hx => hg x (by simp [hx])]

theorem takeWhile_append_of_all {α : Type} {p : α → Bool} {g : List α} (t : List α)
    (hg : ∀ x ∈ g, p x = true) :
    (g ++ t).takeWhile p = g ++ t.takeWhile p := by
  induction g with
  | nil => simp
  | cons a g ih =>
    have ha : p a = true := hg a (by simp)
    simp only [List.cons_append, List.takeWhile_cons, ha, if_true]
    rw [ih fun x hx => hg x (by simp [hx])]

theorem get?_append_cons {α : Type} (g t : List α) (c : α) :
    (g ++ c :: t).get? g.length = some c := by
  induction g with
  | nil => rfl
  | cons a g ih => simpa using ih

theorem drop_append_cons_succ {α : Type} (g t : List α) (c : α) :
    (g ++ c :: t).drop (g.length + 1) = t := by
  have : g.length + 1 = (g ++ [c]).length := by simp
  rw [this, show g ++ c :: t = (g ++ [c]) ++ t by simp, List.drop_left]

theorem drop_takeWhile_length {α : Type} (p : α → Bool) (s : List α) :
    s.drop (s.takeWhile p).length = s.dropWhile p := by
  induction s with
  | nil => rfl
  | cons a t ih =>
    by_cases h : p a = true
    · simp [List.takeWhile_cons, List.dropWhile_cons, h, ih]
    · simp only [Bool.not_eq_true] at h
      simp [List.takeWhile_cons, List.dropWhile_cons, h]

theorem all_takeWhile {α : Type} (p : α → Bool) (s : List α) :
    ∀ x ∈ s.takeWhile p, p x = true := by
  intro x hx
  induction s with
  | nil => simp at hx
  | cons a t ih =>
    rw [List.takeWhile_cons] at hx
    by_cases h : p a = true
    · simp only [h, if_true, List.mem_cons] at hx
      rcases hx with rfl | hx
      · exact h
      · exact ih hx
    · simp only [Bool.not_eq_true] at h
      simp [h] at hx

theorem take_all_of_le_takeWhile {α : Type} {p : α → Bool} :
    ∀ (s : List α) (n : Nat), n ≤ (s.takeWhile p).length →
      (s.take n).all p = true
  | _, 0, _ => by simp
  | [], n + 1, h => by simp at h
  | c :: t, n + 1, h => by
    rw [List.takeWhile_cons] at h
    by_cases hc : p c = true
    · simp only [hc, if_true, List.length_cons, Nat.add_le_add_iff_right] at h
      simp only [List.take_succ_cons, List.all_cons, hc, Bool.true_and]
      exact take_all_of_le_takeWhile t n h
    · simp only [Bool.not_eq_true] at hc
      simp [hc] at h

/-! ### splitSep helpers -/

theorem splitSep_ne_nil (sep : Char) (s : List Char) : splitSep sep s ≠ [] := by
  induction s with
  | nil => simp [splitSep]
  | cons c t ih =>
    rw [splitSep]
    by_cases h : c = sep
    · simp [h]
    · simp only [h, if_false]
      cases hs : splitSep sep t with
      | nil => simp
      | cons g gs => simp

theorem splitSep_no_sep {sep : Char} {s : List Char} (h : ∀ x ∈ s, x ≠ sep) :
    splitSep sep s = [s] := by
  induction s with
  | nil => rfl
  | cons c t ih =>
    rw [splitSep]
    have hc : ¬ c = sep := h c (by simp)
    simp only [hc, if_false]
    rw [ih fun x hx => h x (by simp [hx])]

theorem splitSep_append_sep {sep : Char} {g : List Char} (t : List Char)
    (hg : ∀ x ∈ g, x ≠ sep) :
    splitSep sep (g ++ sep :: t) = g :: splitSep sep t := by
  induction g with
  | nil => simp [splitSep]
  | cons c g ih =>
    have hc : ¬ c = sep := hg c (by simp)
    rw [List.cons_append, splitSep]
    simp only [hc, if_false]
    rw [ih fun x hx => hg x (by simp [hx])]

/-! ### fold-min helpers -/

theorem foldl_min_le_init (xs : List Int) (a : Int) : xs.foldl min a ≤ a := by
  induction xs generalizing a with
  | nil => simp
  | cons x xs ih =>
    calc (x :: xs).foldl min a = xs.foldl min (min a x) := rfl
    _ ≤ min a x := ih (min a x)
    _ ≤ a := min_le_left a x

theorem foldl_min_le_mem {xs : List Int} {x : Int} (hx : x ∈ xs) (a : Int) :
    xs.foldl min a ≤ x := by
  induction xs generalizing a with
  | nil => simp at hx
  | cons y ys ih =>
    rcases List.mem_cons.mp hx with rfl | hx
    · calc (x :: ys).foldl min a = ys.foldl min (min a x) := rfl
      _ ≤ min a x := foldl_min_le_init ys (min a x)
      _ ≤ x := min_le_right a x
    · exact ih hx (min a y)

theorem foldl_min_mem_or (xs : List Int) (a : Int) :
    xs.foldl min a = a ∨ xs.foldl min a ∈ xs := by
  induction xs generalizing a with
  | nil => simp
  | cons x xs ih =>
    have h : (x :: xs).foldl min a = xs.foldl min (min a x) := rfl
    rcases ih (min a x) with h' | h'
    · rcases min_cases a x with ⟨hm, _⟩ | ⟨hm, _⟩
      · left; rw [h, h', hm]
      · right; rw [h, h', hm]; simp
    · right; rw [h]; simp [h']

theorem listMin_le {l : List Int} {x : Int} (hx : x ∈ l) : listMin l ≤ x := by
  cases l with
  | nil => simp at hx
  | cons y ys =>
    rcases List.mem_cons.mp hx with rfl | hx
    · exact foldl_min_le_init ys x
    · exact foldl_min_le_mem hx y

theorem listMin_mem {l : List Int} (h : l ≠ []) : listMin l ∈ l := by
  cases l with
  | nil => exact absurd rfl h
  | cons y ys =>
    rcases foldl_min_mem_or ys y with h' | h'
    · rw [listMin, h']; simp
    · rw [listMin]; simp [h']

/-! ### Characterization of rule 1 (claim C4) -/

theorem word_ne_comma {c : Char} (h : isWordChar c = true) : c ≠ ',' := by
  intro hc
  subst hc
  simp [isWordChar, Char.isAlpha, Char.isDigit, Char.isUpper, Char.isLower] at h

theorem isEmpty_false_of_ne_nil {α : Type} {l : List α} (h : l ≠ []) :
    l.isEmpty = false := by
  cases l with
  | nil => exact absurd rfl h
  | cons a t => rfl

theorem splitSep_flat {opts : List (List Char)} (tail : List Char)
    (h : ∀ o ∈ opts, o.all isWordChar = true) :
    splitSep ',' ((opts.map fun o => o ++ [',']).flatten ++ tail) =
      opts ++ splitSep ',' tail := by
  induction opts with
  | nil => simp
  | cons o os ih =>
    have ho : ∀ x ∈ o, x ≠ ',' := fun x hx =>
      word_ne_comma (by
        have := h o (by simp)
        exact (List.all_eq_true.mp this x hx))
    have assoc : ((o :: os).map fun g => g ++ [',']).flatten ++ tail
        = o ++ ',' :: ((os.map fun g => g ++ [',']).flatten ++ tail) := by
      simp
    rw [assoc, splitSep_append_sep _ ho, ih fun g hg => h g (by simp [hg])]
    rfl

theorem flat_length (opts : List (List Char)) :
    ((opts.map fun o => o ++ [',']).flatten).length =
      (opts.map List.length).sum + opts.length := by
  induction opts with
  | nil => simp
  | cons o os ih =>
    simp only [List.map_cons, List.flatten_cons, List.length_append, ih,
      List.length_append, List.length_cons, List.map_cons, List.sum_cons,
      List.length_nil]
    omega

theorem parseGroups_flat {opts : List (List Char)} {tail : List Char}
    (hopts : ∀ o ∈ opts, o ≠ [] ∧ o.length ≤ 3 ∧ o.all isWordChar = true) :
    parseGroups ((opts.map fun o => o ++ [',']).flatten ++ tail) =
      opts ++ parseGroups tail := by
  have hall : ∀ o ∈ opts, o.all isWordChar = true := fun o ho => (hopts o ho).2.2
  rw [parseGroups, splitSep_flat tail hall,
    List.dropLast_append_of_ne_nil _ (splitSep_ne_nil ',' tail)]
  rw [takeWhile_append_of_all _ (fun o ho => by
    rcases hopts o ho with ⟨h1, h2, h3⟩
    simp [isEmpty_false_of_ne_nil h1, h2, h3])]
  rfl

theorem drop_eq_cons_of_get? {α : Type} {s : List α} {n : Nat} {c : α}
    (h : s.get? n = some c) : s.drop n = c :: s.drop (n + 1) := by
  induction s generalizing n with
  | nil => simp at h
  | cons x t ih =>
    cases n with
    | zero => simp_all
    | succ m => simpa using ih (by simpa using h)

theorem sub1_iff (s : List Char) :
    sub1 s = true ↔
      ∃ a b : List Char, s = a ++ ',' :: b ∧ a.all isWordChar = true ∧
        b.all isWordChar = true ∧ 1 ≤ a.length ∧ a.length ≤ 2 ∧
        1 ≤ b.length ∧ b.length ≤ 2 := by
  constructor
  · intro h
    rw [sub1] at h
    simp only [Bool.and_eq_true, decide_eq_true_eq] at h
    obtain ⟨⟨⟨⟨⟨h1, h2⟩, h3⟩, h4⟩, h5⟩, h6⟩ := h
    set a := s.takeWhile isWordChar with ha
    have hsplit : s = a ++ ',' :: s.drop (a.length + 1) := by
      obtain ⟨t, ht⟩ := List.takeWhile_prefix (l := s) (p := isWordChar)
      have htake : s.take a.length = a := by
        conv_lhs => rw [← ht]
        exact List.take_left a t
      have hd := drop_eq_cons_of_get? h3
      calc s = s.take a.length ++ s.drop a.length :=
            (List.take_append_drop a.length s).symm
        _ = a ++ ',' :: s.drop (a.length + 1) := by rw [htake, hd]
    have hbne : s.drop (a.length + 1) ≠ [] := by
      intro hnil
      rw [hnil] at h4
      simp at h4
    refine ⟨a, s.drop (a.length + 1), hsplit, ?_, h6, h1, h2, ?_, h5⟩
    · exact List.all_eq_true.mpr fun x hx => all_takeWhile isWordChar s x hx
    · cases hb : s.drop (a.length + 1) with
      | nil => exact absurd hb hbne
      | cons _ _ => simp
  · rintro ⟨a, b, rfl, haw, hbw, ha1, ha2, hb1, hb2⟩
    have hcomma : isWordChar ',' = false := by decide
    have htw : (a ++ ',' :: b).takeWhile isWordChar = a :=
      takeWhile_append_of_break (List.all_eq_true.mp haw) hcomma
    have hbne : b ≠ [] := by
      cases b with
      | nil => simp at hb1
      | cons _ _ => simp
    rw [sub1]
    simp only [htw, get?_append_cons, drop_append_cons_succ, Bool.and_eq_true,
      decide_eq_true_eq, isEmpty_false_of_ne_nil hbne, Bool.not_false]
    exact ⟨⟨⟨⟨⟨ha1, ha2⟩, trivial⟩, trivial⟩, hb2⟩, hbw⟩

/-- C4: when the bare-list rule (rule 1) consumes a run of
comma-terminated 1-3-character options, the terminal option is the next
slice of the cursor of the first listed option's length, unless the
entire remaining cursor is exactly two options of 1-2 characters each
separated by a single comma, in which case the terminal option is the
whole rest of the cursor; the emitted fragment is the alternation of the
options and its min size is the minimum option length among the options
emitted. -/
theorem C4_rule1_terminal (opts : List (List Char)) (tail s term : List Char)
    (hs : s = (opts.map fun o => o ++ [',']).flatten ++ tail)
    (hne : opts ≠ [])
    (hopts : ∀ o ∈ opts, o ≠ [] ∧ o.length ≤ 3 ∧ o.all isWordChar = true)
    (hmax : parseGroups tail = [])
    (hterm : term = if sub1 s then tail else tail.take (opts.headD []).length) :
    ∃ ch : PatternChunk,
      rule1 s = some (ch, if sub1 s then [] else tail.drop (opts.headD []).length) ∧
      ch.pattern = mkAlt (opts ++ [term]) ∧
      (∀ o ∈ opts ++ [term], ch.size ≤ (o.length : Int)) ∧
      (∃ o ∈ opts ++ [term], ch.size = (o.length : Int)) ∧
      (sub1 s = true ↔
        ∃ a b : List Char, s = a ++ ',' :: b ∧ a.all isWordChar = true ∧
          b.all isWordChar = true ∧ 1 ≤ a.length ∧ a.length ≤ 2 ∧
          1 ≤ b.length ∧ b.length ≤ 2) := by
  have hpg : parseGroups s = opts := by
    rw [hs, parseGroups_flat hopts, hmax, List.append_nil]
  have hdropb : s.drop ((opts.map List.length).sum + opts.length) = tail := by
    rw [hs, ← flat_length opts, List.drop_left]
  have hdropb1 :
      s.drop ((opts.map List.length).sum + opts.length + (opts.headD []).length)
        = tail.drop (opts.headD []).length := by
    rw [← hdropb, List.drop_drop]
  have hmain : rule1 s =
      some (⟨mkAlt (opts ++ [term]),
             listMin ((opts ++ [term]).map fun o => (o.length : Int))⟩,
            if sub1 s then [] else tail.drop (opts.headD []).length) := by
    by_cases hsub : sub1 s = true
    · rw [rule1]
      simp only [hpg, isEmpty_false_of_ne_nil hne, Bool.false_eq_true, if_false,
        hsub, if_true, hdropb]
      rw [hterm]
      simp [hsub]
    · rw [rule1]
      simp only [hpg, isEmpty_false_of_ne_nil hne, Bool.false_eq_true, if_false,
        hsub, hdropb, hdropb1]
      rw [hterm]
      simp [hsub]
  refine ⟨⟨mkAlt (opts ++ [term]),
          listMin ((opts ++ [term]).map fun o => (o.length : Int))⟩,
    hmain, rfl, ?_, ?_, sub1_iff s⟩
  · intro o ho
    exact listMin_le (List.mem_map_of_mem _ ho)
  · have hne2 : (opts ++ [term]).map (fun o => (o.length : Int)) ≠ [] := by
      simp
    have h := listMin_mem hne2
    rcases List.mem_map.mp h with ⟨o, ho, heq⟩
    exact ⟨o, ho, heq.symm⟩

theorem C4_rule1_terminal_witness :
    ∃ ch : PatternChunk,
      rule1 ("AB,CD".toList) = some (ch, []) ∧
      ch.pattern = "(AB|CD)".toList ∧
      (∀ o ∈ ["AB".toList, "CD".toList], ch.size ≤ (o.length : Int)) ∧
      (∃ o ∈ ["AB".toList, "CD".toList], ch.size = (o.length : Int)) := by
  obtain ⟨ch, h1, h2, h3, h4, h5⟩ :=
    C4_rule1_terminal [['A', 'B']] ("CD".toList) ("AB,CD".toList) ("CD".toList)
      (by decide) (by decide) (by decide) (by decide) (by decide)
  have hsub : sub1 ("AB,CD".toList) = true := by decide
  rw [hsub] at h1
  simp only [if_true] at h1
  have hlist : [['A', 'B']] ++ ["CD".toList] = ["AB".toList, "CD".toList] := by decide
  rw [hlist] at h3 h4
  have hpat : mkAlt ["AB".toList, "CD".toList] = "(AB|CD)".toList := by decide
  rw [hlist, hpat] at h2
  exact ⟨ch, h1, h2, h3, h4⟩

/-! ### Characterization of rule 3 (claim C5) -/

theorem joinSep_cons_exists (sep : Char) (o : List Char) (os : List (List Char)) :
    ∃ t, joinSep sep (o :: os) = o ++ t := by
  cases os with
  | nil => exact ⟨[], by simp [joinSep]⟩
  | cons o2 os' => exact ⟨sep :: joinSep sep (o2 :: os'), rfl⟩

theorem mem_joinSep {sep : Char} {opts : List (List Char)} {c : Char}
    (h : c ∈ joinSep sep opts) : c = sep ∨ ∃ o ∈ opts, c ∈ o := by
  induction opts with
  | nil => simp [joinSep] at h
  | cons o os ih =>
    cases os with
    | nil =>
      rw [joinSep] at h
      exact Or.inr ⟨o, by simp, h⟩
    | cons o2 os' =>
      rw [joinSep] at h
      rcases List.mem_append.mp h with h | h
      · exact Or.inr ⟨o, by simp, h⟩
      · rcases List.mem_cons.mp h with rfl | h
        · exact Or.inl rfl
        · rcases ih h with h | ⟨o', ho', hc⟩
          · exact Or.inl h
          · exact Or.inr ⟨o', by simp [ho'], hc⟩

theorem noCC_word_append {o r : List Char} (ho : ∀ x ∈ o, isWordChar x = true)
    (hr : noCC r = true) : noCC (o ++ r) = true := by
  induction o with
  | nil => simpa
  | cons c o' ih =>
    have hc : isWordChar c = true := ho c (by simp)
    have ih' := ih fun x hx => ho x (by simp [hx])
    rw [List.cons_append]
    cases h : o' ++ r with
    | nil => rfl
    | cons d t =>
      rw [h] at ih'
      rw [noCC]
      have hne : (decide (c = ',')) = false := decide_eq_false (word_ne_comma hc)
      simp [hne, ih']

theorem noCC_comma_cons {l : List Char} (hne : l.headD ' ' ≠ ',')
    (hl : noCC l = true) : noCC (',' :: l) = true := by
  cases l with
  | nil => rfl
  | cons d t =>
    rw [noCC]
    have hd : (decide (d = ',')) = false := decide_eq_false (by simpa using hne)
    simp [hd, hl]

theorem noCC_joinSep {opts : List (List Char)}
    (h : ∀ o ∈ opts, o ≠ [] ∧ o.all isWordChar = true) :
    noCC (joinSep ',' opts) = true := by
  induction opts with
  | nil => rfl
  | cons o os ih =>
    cases os with
    | nil =>
      rw [joinSep]
      have := noCC_word_append (o := o) (r := [])
        (fun x hx => List.all_eq_true.mp (h o (by simp)).2 x hx) rfl
      simpa using this
    | cons o2 os' =>
      rw [joinSep]
      apply noCC_word_append fun x hx => List.all_eq_true.mp (h o (by simp)).2 x hx
      apply noCC_comma_cons
      · obtain ⟨t, ht⟩ := joinSep_cons_exists ',' o2 os'
        rw [ht]
        obtain ⟨h2ne, h2w⟩ := h o2 (by simp)
        cases o2 with
        | nil => exact absurd rfl h2ne
        | cons c2 t2 =>
          have : isWordChar c2 = true := List.all_eq_true.mp h2w c2 (by simp)
          simpa using word_ne_comma this
      · exact ih fun g hg => h g (by simp [hg])

theorem map_id_of_word {o : List Char} (h : o.all isWordChar = true) :
    o.map (fun c => if c = ',' then '|' else c) = o := by
  induction o with
  | nil => rfl
  | cons c t ih =>
    have hc : c ≠ ',' := word_ne_comma (List.all_eq_true.mp h c (by simp))
    have ht : t.all isWordChar = true := by
      simp only [List.all_cons, Bool.and_eq_true] at h
      exact h.2
    simp only [List.map_cons, if_neg hc, ih ht]

theorem map_bar_joinSep {opts : List (List Char)}
    (h : ∀ o ∈ opts, o.all isWordChar = true) :
    (joinSep ',' opts).map (fun c => if c = ',' then '|' else c) =
      joinSep '|' opts := by
  induction opts with
  | nil => rfl
  | cons o os ih =>
    cases os with
    | nil =>
      rw [joinSep, joinSep]
      exact map_id_of_word (h o (by simp))
    | cons o2 os' =>
      rw [joinSep]
      rw [List.map_append, List.map_cons]
      rw [map_id_of_word (h o (by simp))]
      rw [ih fun g hg => h g (by simp [hg])]
      simp [joinSep]

deriving instance DecidableEq for Except

/-- C5 (amended): a parenthesized comma-separated list of 1-3-character
word options at the front of the cursor makes rule 3 emit the same text
with each comma replaced by a vertical bar, parens retained; the min
size is the length of the first listed option when the list holds at
least two options, and that length plus one for a single-option list;
the three list spellings compile to identical canonical pattern text. -/
theorem C5_rule3_paren_list :
    (∀ (opts : List (List Char)) (rest s : List Char),
      s = '(' :: (joinSep ',' opts ++ ')' :: rest) →
      opts ≠ [] →
      (∀ o ∈ opts, o ≠ [] ∧ o.length ≤ 3 ∧ o.all isWordChar = true) →
      rule3 s = some (⟨mkAlt opts,
        if 2 ≤ opts.length then ((opts.headD []).length : Int)
        else ((opts.headD []).length : Int) + 1⟩, rest))
    ∧ transformPattern (some "(1,2,3)") = .ok ("(1|2|3)".toList)
    ∧ transformPattern (some "AB,CD,EF") = .ok ("(AB|CD|EF)".toList)
    ∧ transformPattern (some "AB/CD/EF") = .ok ("(AB|CD|EF)".toList) := by
  refine ⟨?_, by decide, by decide, by decide⟩
  intro opts rest s hs hne hopts
  subst hs
  have hallw : ∀ o ∈ opts, o.all isWordChar = true := fun o ho => (hopts o ho).2.2
  obtain ⟨o, os, rfl⟩ : ∃ o os, opts = o :: os := by
    cases opts with
    | nil => exact absurd rfl hne
    | cons o os => exact ⟨o, os, rfl⟩
  obtain ⟨c, o', rfl⟩ : ∃ c o', o = c :: o' := by
    cases o with
    | nil => exact absurd rfl (hopts [] (by simp)).1
    | cons c o' => exact ⟨c, o', rfl⟩
  obtain ⟨t, ht⟩ := joinSep_cons_exists ',' (c :: o') os
  have hcw : isWordChar c = true :=
    List.all_eq_true.mp (hallw (c :: o') (by simp)) c (by simp)
  have hinner : (joinSep ',' ((c :: o') :: os) ++ ')' :: rest).takeWhile
      (fun x => isWordChar x || x == ',') = joinSep ',' ((c :: o') :: os) := by
    refine takeWhile_append_of_break (fun x hx => ?_) (by decide)
    rcases mem_joinSep hx with rfl | ⟨g, hg, hxg⟩
    · simp
    · simp [List.all_eq_true.mp (hallw g hg) x hxg]
  have hne2 : (joinSep ',' ((c :: o') :: os)).isEmpty = false := by
    rw [ht]
    rfl
  have hhead : (joinSep ',' ((c :: o') :: os)).headD ' ' = c := by
    rw [ht]
    rfl
  have hnocc : noCC (joinSep ',' ((c :: o') :: os)) = true :=
    noCC_joinSep fun g hg => ⟨(hopts g hg).1, (hopts g hg).2.2⟩
  have hpat : ('(' :: (joinSep ',' ((c :: o') :: os) ++ [')'])).map
      (fun x => if x = ',' then '|' else x) = mkAlt ((c :: o') :: os) := by
    rw [List.map_cons, List.map_append, map_bar_joinSep hallw, mkAlt]
    simp
  rw [rule3]
  simp only [List.cons_append] at hpat
  simp [hinner, hne2, hhead, hnocc, hpat, drop_append_cons_succ, List.drop_left]
  constructor
  · rw [ht]
    simpa using hcw
  · cases os with
    | nil =>
      have hJ : joinSep ',' [c :: o'] = c :: o' := rfl
      rw [hJ]
      have hall : ∀ x ∈ (c :: o') ++ [')'],
          (fun y => !decide (y = ',')) x = true := by
        intro x hx
        rcases List.mem_append.mp hx with hx | hx
        · simp [word_ne_comma (List.all_eq_true.mp (hallw (c :: o') (by simp)) x hx)]
        · rcases List.mem_singleton.mp hx with rfl
          decide
      rw [List.takeWhile_eq_self_iff.mpr hall]
      simp
    | cons o2 os' =>
      have hJ : joinSep ',' ((c :: o') :: o2 :: os')
          = (c :: o') ++ ',' :: joinSep ',' (o2 :: os') := rfl
      rw [hJ]
      have hassoc : ((c :: o') ++ ',' :: joinSep ',' (o2 :: os')) ++ [')']
          = (c :: o') ++ ',' :: (joinSep ',' (o2 :: os') ++ [')']) := by simp
      rw [hassoc]
      rw [takeWhile_append_of_break (fun x hx => by
        simp [word_ne_comma (List.all_eq_true.mp (hallw (c :: o') (by simp)) x hx)])
        (by decide)]
      simp

theorem C5_rule3_paren_list_witness :
    rule3 ("(1,2,3)".toList) = some (⟨"(1|2|3)".toList, 1⟩, []) :=
  (C5_rule3_paren_list.1 [['1'], ['2'], ['3']] [] ("(1,2,3)".toList)
    (by decide) (by decide) (by decide)).trans (by decide)

/-- Counterexample to C5 as stated: for the single-option parenthesized
list paren-A-B-paren, the code computes min size 3 (length of the text
up to the first comma minus one, and there is no comma), not the first
option's length 2 that the claim requires. -/
theorem C5_rule3_single_option_cex :
    transform (some "(AB)") = .ok [⟨"(AB)".toList, 3⟩] ∧
    rule3 ("(AB)".toList) ≠
      some (⟨mkAlt ["AB".toList], (("AB".toList).length : Int)⟩, []) :=
  ⟨by decide, by decide⟩

/-! ### Characterization of rule 4 (claim C6) -/

theorem drop_length_append {α : Type} (g t : List α) (n : Nat)
    (h : g.length = n) : (g ++ t).drop n = t := by
  subst h
  exact List.drop_left g t

/-- C6: for a cursor beginning with a run of N asterisks, a lone
asterisk that is the entire cursor becomes the open one-or-more
wildcard with min size 1; otherwise the N asterisks become N
concatenated single-character wildcards with min size N. -/
theorem C6_rule4_asterisks :
    (∀ (n : Nat) (rest s : List Char),
      s = List.replicate n '*' ++ rest →
      1 ≤ n →
      rest.head? ≠ some '*' →
      rule4 s = if n = 1 ∧ rest = []
        then some (⟨"\\w+".toList, 1⟩, [])
        else some (⟨(List.replicate n ("\\w".toList)).flatten, (n : Int)⟩, rest))
    ∧ transformPattern (some "*123") = .ok ("\\w123".toList)
    ∧ transformPattern (some "123*") = .ok ("123\\w+".toList) := by
  refine ⟨?_, by decide, by decide⟩
  intro n rest s hs hn hrest
  subst hs
  have hstars : (List.replicate n '*' ++ rest).takeWhile (fun c => c == '*')
      = List.replicate n '*' := by
    cases rest with
    | nil =>
      rw [List.append_nil]
      exact List.takeWhile_eq_self_iff.mpr fun x hx => by
        rw [List.eq_of_mem_replicate hx]
        rfl
    | cons d t =>
      refine takeWhile_append_of_break (fun x hx => ?_) ?_
      · rw [List.eq_of_mem_replicate hx]
        rfl
      · have hd : d ≠ '*' := fun h => hrest (by simp [h])
        simp [hd]
  rw [rule4]
  simp only [hstars, List.length_replicate]
  rw [if_neg (by omega)]
  by_cases hone : n = 1 ∧ rest = []
  · obtain ⟨rfl, rfl⟩ := hone
    rw [if_pos (by decide), if_pos ⟨rfl, rfl⟩]
    rfl
  · have hsne : List.replicate n '*' ++ rest ≠ ['*'] := by
      intro h
      have hl := congrArg List.length h
      simp only [List.length_append, List.length_replicate,
        List.length_singleton] at hl
      have hn1 : n = 1 := by omega
      have hr : rest = [] := List.length_eq_zero.mp (by omega)
      exact hone ⟨hn1, hr⟩
    rw [if_neg hsne, if_neg hone]
    have hwl : ("\\w".toList : List Char) = ['\\', 'w'] := rfl
    rw [hwl, drop_length_append _ _ _ (List.length_replicate n '*')]

theorem C6_rule4_asterisks_witness :
    rule4 ("*123".toList) = some (⟨"\\w".toList, 1⟩, "123".toList) :=
  (C6_rule4_asterisks.1 1 ("123".toList) ("*123".toList) (by decide) (by decide)
    (by decide)).trans (by decide)

/-! ### Characterization of the preprocessing (claim C7) -/

theorem map_s2c_digits {d : List Char} (h : ∀ x ∈ d, Char.isDigit x = true) :
    d.map slashToComma = d := by
  induction d with
  | nil => rfl
  | cons c t ih =>
    have hc : c ≠ '/' := by
      intro hc
      subst hc
      exact absurd (h '/' (by simp)) (by decide)
    simp only [List.map_cons, slashToComma, if_neg hc,
      ih fun x hx => h x (by simp [hx])]

theorem matchDDat_sound {s d1 d2 r : List Char} {a : Nat}
    (hk : a ≤ (s.takeWhile Char.isDigit).length) (ha2 : 2 ≤ a) (ha3 : a ≤ 3)
    (hget : s.get? a = some '/')
    (h : matchDDat s a = some (d1, d2, r)) :
    s = d1 ++ '/' :: (d2 ++ r) ∧ ddOK d1 ∧ ddOK d2 := by
  rw [matchDDat] at h
  have halen : a < s.length := (List.get?_eq_some.mp hget).1
  have hsplit : s = s.take a ++ '/' :: s.drop (a + 1) := by
    conv_lhs => rw [← List.take_append_drop a s]
    rw [drop_eq_cons_of_get? hget]
  have htake_len : (s.take a).length = a := by
    rw [List.length_take]
    omega
  have hddok1 : ddOK (s.take a) :=
    ⟨take_all_of_le_takeWhile s a hk, by omega, by omega⟩
  have hmt : ((s.drop (a + 1)).takeWhile Char.isDigit).length ≤
      (s.drop (a + 1)).length :=
    List.Sublist.length_le (List.takeWhile_sublist _)
  by_cases h3 : 3 ≤ ((s.drop (a + 1)).takeWhile Char.isDigit).length
  · rw [if_pos h3] at h
    simp only [Option.some.injEq, Prod.mk.injEq] at h
    obtain ⟨rfl, rfl, rfl⟩ := h
    refine ⟨?_, hddok1, ?_, by rw [List.length_take]; omega, by
      rw [List.length_take]; omega⟩
    · conv_rhs => rw [List.take_append_drop]
      exact hsplit
    · exact take_all_of_le_takeWhile _ 3 h3
  · rw [if_neg h3] at h
    by_cases h2 : 2 ≤ ((s.drop (a + 1)).takeWhile Char.isDigit).length
    · rw [if_pos h2] at h
      simp only [Option.some.injEq, Prod.mk.injEq] at h
      obtain ⟨rfl, rfl, rfl⟩ := h
      refine ⟨?_, hddok1, ?_, by rw [List.length_take]; omega, by
        rw [List.length_take]; omega⟩
      · conv_rhs => rw [List.take_append_drop]
        exact hsplit
      · exact take_all_of_le_takeWhile _ 2 h2
    · rw [if_neg h2] at h
      exact absurd h (by simp)

theorem matchDD_sound {s d1 d2 r : List Char}
    (h : matchDD s = some (d1, d2, r)) :
    s = d1 ++ '/' :: (d2 ++ r) ∧ ddOK d1 ∧ ddOK d2 := by
  rw [matchDD] at h
  by_cases h3 : 3 ≤ (s.takeWhile Char.isDigit).length ∧ s.get? 3 = some '/'
  · rw [if_pos h3] at h
    exact matchDDat_sound h3.1 (by omega) (by omega) h3.2 h
  · rw [if_neg h3] at h
    by_cases h2 : 2 ≤ (s.takeWhile Char.isDigit).length ∧ s.get? 2 = some '/'
    · rw [if_pos h2] at h
      exact matchDDat_sound h2.1 (by omega) (by omega) h2.2 h
    · rw [if_neg h2] at h
      exact absurd h (by simp)

theorem matchDD_complete {s d1 d2 r : List Char}
    (hs : s = d1 ++ '/' :: (d2 ++ r)) (h1 : ddOK d1) (h2 : ddOK d2) :
    (matchDD s).isSome = true := by
  obtain ⟨h1d, h1a, h1b⟩ := h1
  obtain ⟨h2d, h2a, h2b⟩ := h2
  subst hs
  have htw : (d1 ++ '/' :: (d2 ++ r)).takeWhile Char.isDigit = d1 :=
    takeWhile_append_of_break (List.all_eq_true.mp h1d) (by decide)
  have hget : (d1 ++ '/' :: (d2 ++ r)).get? d1.length = some '/' :=
    get?_append_cons _ _ _
  have hdrop : (d1 ++ '/' :: (d2 ++ r)).drop (d1.length + 1) = d2 ++ r :=
    drop_append_cons_succ _ _ _
  have hm : d2.length ≤ ((d2 ++ r).takeWhile Char.isDigit).length := by
    rw [takeWhile_append_of_all r (List.all_eq_true.mp h2d)]
    simp
  have hat : ∀ a, a = d1.length → (matchDDat (d1 ++ '/' :: (d2 ++ r)) a).isSome
      = true := by
    intro a ha
    rw [matchDDat]
    subst ha
    rw [hdrop]
    by_cases hm3 : 3 ≤ ((d2 ++ r).takeWhile Char.isDigit).length
    · rw [if_pos hm3]
      rfl
    · rw [if_neg hm3, if_pos (by omega)]
      rfl
  rw [matchDD]
  have hd1 : d1.length = 2 ∨ d1.length = 3 := by omega
  rcases hd1 with hl | hl
  · rw [if_neg (by rw [htw]; omega), if_pos ⟨by rw [htw]; omega, by
      rw [← hl]; exact hget⟩]
    exact hat 2 hl.symm
  · rw [if_pos ⟨by rw [htw]; omega, by rw [← hl]; exact hget⟩]
    exact hat 3 hl.symm

theorem matchDD_ne_none_of_front {s d1 d2 r : List Char}
    (hs : s = d1 ++ '/' :: (d2 ++ r)) (h1 : ddOK d1) (h2 : ddOK d2) :
    matchDD s ≠ none := by
  intro hnone
  have := matchDD_complete hs h1 h2
  rw [hnone] at this
  exact absurd this (by simp)

theorem searchDD_sound : ∀ {s l d1 d2 r : List Char},
    searchDD s = some (l, d1, d2, r) →
    s = l ++ d1 ++ '/' :: (d2 ++ r) ∧ ddOK d1 ∧ ddOK d2 ∧
      ¬ ∃ l' d1' d2' r' : List Char, l'.length < l.length ∧
        s = l' ++ d1' ++ '/' :: (d2' ++ r') ∧ ddOK d1' ∧ ddOK d2' := by
  intro s
  induction s with
  | nil =>
    intro l d1 d2 r h
    rw [searchDD] at h
    exact absurd h (by simp)
  | cons c t ih =>
    intro l d1 d2 r h
    rw [searchDD] at h
    cases hm : matchDD (c :: t) with
    | some x =>
      obtain ⟨xd1, xd2, xr⟩ := x
      rw [hm] at h
      simp only [Option.some.injEq, Prod.mk.injEq] at h
      obtain ⟨hl, h1, h2, h3⟩ := h
      subst hl h1 h2 h3
      obtain ⟨hdec, hd1, hd2⟩ := matchDD_sound hm
      refine ⟨by simpa using hdec, hd1, hd2, ?_⟩
      rintro ⟨l', d1', d2', r', hlt, _, _, _⟩
      simp at hlt
    | none =>
      rw [hm] at h
      cases hst : searchDD t with
      | none =>
        rw [hst] at h
        exact absurd h (by simp)
      | some y =>
        obtain ⟨l0, yd1, yd2, yr⟩ := y
        rw [hst] at h
        simp only [Option.map_some', Option.some.injEq, Prod.mk.injEq] at h
        obtain ⟨hl, h1, h2, h3⟩ := h
        subst hl h1 h2 h3
        obtain ⟨hdec, hd1, hd2, hmin⟩ := ih hst
        refine ⟨by simp [hdec], hd1, hd2, ?_⟩
        rintro ⟨l', d1', d2', r', hlt, heq, hd1', hd2'⟩
        cases l' with
        | nil =>
          simp only [List.nil_append] at heq
          exact matchDD_ne_none_of_front heq hd1' hd2' hm
        | cons c' l'' =>
          simp only [List.cons_append, List.cons.injEq] at heq
          obtain ⟨-, heq2⟩ := heq
          refine hmin ⟨l'', d1', d2', r', ?_, heq2, hd1', hd2'⟩
          simpa using hlt

theorem searchDD_none : ∀ {s : List Char}, searchDD s = none →
    ¬ ∃ l d1 d2 r : List Char,
      s = l ++ d1 ++ '/' :: (d2 ++ r) ∧ ddOK d1 ∧ ddOK d2 := by
  intro s
  induction s with
  | nil =>
    rintro - ⟨l, d1, d2, r, heq, hd1, hd2⟩
    have := congrArg List.length heq
    obtain ⟨-, h2, -⟩ := hd1
    simp only [List.length_nil, List.length_append, List.length_cons] at this
    omega
  | cons c t ih =>
    intro h
    rw [searchDD] at h
    cases hm : matchDD (c :: t) with
    | some x =>
      obtain ⟨xd1, xd2, xr⟩ := x
      rw [hm] at h
      exact absurd h (by simp)
    | none =>
      rw [hm] at h
      rintro ⟨l, d1, d2, r, heq, hd1, hd2⟩
      cases l with
      | nil =>
        simp only [List.nil_append] at heq
        exact matchDD_ne_none_of_front heq hd1 hd2 hm
      | cons c' l'' =>
        simp only [List.cons_append, List.cons.injEq] at heq
        obtain ⟨-, heq2⟩ := heq
        have hst : searchDD t = none := by
          cases hst : searchDD t with
          | none => rfl
          | some y =>
            rw [hst] at h
            exact absurd h (by simp)
        exact ih hst ⟨l'', d1, d2, r, heq2, hd1, hd2⟩

/-- C7: the preprocessing of transform truncates the raw input at the
first plus sign, rewrites in place only the first (leftmost) occurrence
of a 2-or-3-digit piece, a slash, and another 2-or-3-digit piece into a
parenthesized comma pair, leaving the rest unchanged, and then replaces
every remaining slash with a comma; compiling the example input yields
the expected canonical pattern. -/
theorem C7_preprocess :
    (∀ s : List Char,
      ((¬ ∃ l d1 d2 r : List Char,
          s.takeWhile (fun c => c ≠ '+') = l ++ d1 ++ '/' :: (d2 ++ r) ∧
          ddOK d1 ∧ ddOK d2) ∧
        preprocess s = (s.takeWhile fun c => c ≠ '+').map slashToComma)
      ∨ (∃ l d1 d2 r : List Char,
          s.takeWhile (fun c => c ≠ '+') = l ++ d1 ++ '/' :: (d2 ++ r) ∧
          ddOK d1 ∧ ddOK d2 ∧
          preprocess s = l.map slashToComma ++
            '(' :: (d1 ++ ',' :: (d2 ++ ')' :: r.map slashToComma)) ∧
          ¬ ∃ l' d1' d2' r' : List Char, l'.length < l.length ∧
            s.takeWhile (fun c => c ≠ '+') = l' ++ d1' ++ '/' :: (d2' ++ r') ∧
            ddOK d1' ∧ ddOK d2'))
    ∧ transformPattern (some "ABC123/345DEF") = .ok ("ABC(123|345)DEF".toList) := by
  refine ⟨?_, by decide⟩
  intro s
  cases hsd : searchDD (s.takeWhile fun c => c ≠ '+') with
  | none =>
    left
    refine ⟨searchDD_none hsd, ?_⟩
    rw [preprocess, hsd]
  | some x =>
    obtain ⟨l, d1, d2, r⟩ := x
    right
    obtain ⟨hdec, hd1, hd2, hmin⟩ := searchDD_sound hsd
    refine ⟨l, d1, d2, r, hdec, hd1, hd2, ?_, hmin⟩
    rw [preprocess, hsd]
    have hid1 : d1.map slashToComma = d1 :=
      map_s2c_digits (List.all_eq_true.mp hd1.1)
    have hid2 : d2.map slashToComma = d2 :=
      map_s2c_digits (List.all_eq_true.mp hd2.1)
    have hop : slashToComma '(' = '(' := rfl
    have hcl : slashToComma ')' = ')' := rfl
    have hcm : slashToComma ',' = ',' := rfl
    simp only [List.map_append, List.map_cons, List.map_nil, hid1, hid2, hop,
      hcl, hcm, List.append_assoc, List.cons_append, List.nil_append,
      List.append_nil]

/-! ### The rewrite loop makes strict progress (claim C8) -/

theorem rule1_shrink {s s' : List Char} {c : PatternChunk}
    (h : rule1 s = some (c, s')) : s'.length < s.length := by
  rw [rule1] at h
  by_cases hgs : (parseGroups s).isEmpty = true
  · rw [if_pos hgs] at h
    exact absurd h (by simp)
  · rw [if_neg hgs] at h
    have hne : parseGroups s ≠ [] := by
      intro hh
      rw [hh] at hgs
      exact hgs rfl
    have hsne : s ≠ [] := by
      intro hnil
      subst hnil
      exact hne rfl
    have hslen : 1 ≤ s.length := List.length_pos.mpr hsne
    have hglen : 1 ≤ (parseGroups s).length := List.length_pos.mpr hne
    by_cases hsub : sub1 s = true
    · rw [if_pos hsub] at h
      simp only [Option.some.injEq, Prod.mk.injEq] at h
      obtain ⟨-, h2⟩ := h
      rw [← h2]
      simpa using hslen
    · rw [if_neg hsub] at h
      simp only [Option.some.injEq, Prod.mk.injEq] at h
      obtain ⟨-, h2⟩ := h
      rw [← h2, List.length_drop]
      omega

theorem rule2_shrink {s s' : List Char} {c : PatternChunk}
    (h : rule2 s = some (c, s')) : s'.length < s.length := by
  rw [rule2] at h
  by_cases hw : (s.takeWhile isWordChar).isEmpty = true
  · rw [if_pos hw] at h
    exact absurd h (by simp)
  · rw [if_neg hw] at h
    simp only [Option.some.injEq, Prod.mk.injEq] at h
    obtain ⟨-, h2⟩ := h
    have hne : s.takeWhile isWordChar ≠ [] := by
      intro hh
      rw [hh] at hw
      exact hw rfl
    have hsne : s ≠ [] := by
      intro hnil
      subst hnil
      exact hne rfl
    have h1 : 1 ≤ (s.takeWhile isWordChar).length := List.length_pos.mpr hne
    have h2' : 1 ≤ s.length := List.length_pos.mpr hsne
    rw [← h2, List.length_drop]
    omega

theorem rule3_shrink {s s' : List Char} {c : PatternChunk}
    (h : rule3 s = some (c, s')) : s'.length < s.length := by
  rw [rule3] at h
  by_cases hh : s.head? = some '('
  · rw [if_pos hh] at h
    have hsne : s ≠ [] := by
      intro hnil
      subst hnil
      simp at hh
    have hslen : 1 ≤ s.length := List.length_pos.mpr hsne
    by_cases hc : ((s.tail.drop ((s.tail.takeWhile fun c =>
        isWordChar c || c == ',').length)).head? = some ')' &&
        !(s.tail.takeWhile fun c => isWordChar c || c == ',').isEmpty &&
        isWordChar ((s.tail.takeWhile fun c =>
          isWordChar c || c == ',').headD ' ') &&
        noCC (s.tail.takeWhile fun c => isWordChar c || c == ',')) = true
    · rw [if_pos hc] at h
      simp only [Option.some.injEq, Prod.mk.injEq] at h
      obtain ⟨-, h2⟩ := h
      rw [← h2, List.length_drop, List.length_tail]
      omega
    · rw [if_neg hc] at h
      exact absurd h (by simp)
  · rw [if_neg hh] at h
    exact absurd h (by simp)

theorem rule4_shrink {s s' : List Char} {c : PatternChunk}
    (h : rule4 s = some (c, s')) : s'.length < s.length := by
  rw [rule4] at h
  by_cases h0 : (s.takeWhile fun c => c == '*').length = 0
  · rw [if_pos h0] at h
    exact absurd h (by simp)
  · rw [if_neg h0] at h
    have hne : s.takeWhile (fun c => c == '*') ≠ [] := by
      intro hh
      rw [hh] at h0
      exact h0 rfl
    have hsne : s ≠ [] := by
      intro hnil
      subst hnil
      exact hne rfl
    have hslen : 1 ≤ s.length := List.length_pos.mpr hsne
    by_cases hstar : s = ['*']
    · rw [if_pos hstar] at h
      simp only [Option.some.injEq, Prod.mk.injEq] at h
      obtain ⟨-, h2⟩ := h
      rw [← h2]
      simpa using hslen
    · rw [if_neg hstar] at h
      simp only [Option.some.injEq, Prod.mk.injEq] at h
      obtain ⟨-, h2⟩ := h
      rw [← h2, List.length_drop]
      omega

theorem rule5_shrink {s s' : List Char} {c : PatternChunk}
    (h : rule5 s = some (c, s')) : s'.length < s.length := by
  rw [rule5] at h
  by_cases h0 : (s.takeWhile fun c => c == '-').length = 0
  · rw [if_pos h0] at h
    exact absurd h (by simp)
  · rw [if_neg h0] at h
    have hne : s.takeWhile (fun c => c == '-') ≠ [] := by
      intro hh
      rw [hh] at h0
      exact h0 rfl
    have hsne : s ≠ [] := by
      intro hnil
      subst hnil
      exact hne rfl
    have hslen : 1 ≤ s.length := List.length_pos.mpr hsne
    simp only [Option.some.injEq, Prod.mk.injEq] at h
    obtain ⟨-, h2⟩ := h
    rw [← h2, List.length_drop]
    omega

theorem rule6_shrink {s s' : List Char} {c : PatternChunk}
    (h : rule6 s = some (c, s')) : s'.length < s.length := by
  rw [rule6] at h
  by_cases h3 : s.take 3 = ['(', '*', ')']
  · rw [if_pos h3] at h
    simp only [Option.some.injEq, Prod.mk.injEq] at h
    obtain ⟨-, h2⟩ := h
    have hlen : (s.take 3).length = 3 := by rw [h3]; rfl
    rw [List.length_take] at hlen
    rw [← h2, List.length_drop]
    omega
  · rw [if_neg h3] at h
    exact absurd h (by simp)

theorem stepRule_cases {s : List Char} {r : PatternChunk × List Char}
    (h : stepRule s = some r) :
    rule1 s = some r ∨ rule2 s = some r ∨ rule3 s = some r ∨
      rule4 s = some r ∨ rule5 s = some r ∨ rule6 s = some r := by
  rw [stepRule] at h
  cases h1 : rule1 s with
  | some x => rw [h1] at h; exact Or.inl h
  | none =>
    rw [h1] at h
    cases h2 : rule2 s with
    | some x => rw [h2] at h; exact Or.inr (Or.inl h)
    | none =>
      rw [h2] at h
      cases h3 : rule3 s with
      | some x => rw [h3] at h; exact Or.inr (Or.inr (Or.inl h))
      | none =>
        rw [h3] at h
        cases h4 : rule4 s with
        | some x =>
          rw [h4] at h
          exact Or.inr (Or.inr (Or.inr (Or.inl h)))
        | none =>
          rw [h4] at h
          cases h5 : rule5 s with
          | some x =>
            rw [h5] at h
            exact Or.inr (Or.inr (Or.inr (Or.inr (Or.inl h))))
          | none =>
            rw [h5] at h
            exact Or.inr (Or.inr (Or.inr (Or.inr (Or.inr h))))

theorem stepRule_shrink {s s' : List Char} {c : PatternChunk}
    (h : stepRule s = some (c, s')) : s'.length < s.length := by
  rcases stepRule_cases h with h | h | h | h | h | h
  · exact rule1_shrink h
  · exact rule2_shrink h
  · exact rule3_shrink h
  · exact rule4_shrink h
  · exact rule5_shrink h
  · exact rule6_shrink h

/-- Iterates the rule pass n times, staying put once no rule applies. -/
def stepRun : Nat → List Char → List Char
  | 0, s => s
  | n + 1, s =>
    match stepRule s with
    | some (_, s') => stepRun n s'
    | none => s

theorem stepRule_nil : stepRule [] = none := by decide

theorem stepRun_nil (n : Nat) : stepRun n [] = [] := by
  induction n with
  | zero => rfl
  | succ n ih => rw [stepRun, stepRule_nil]

theorem stepRun_succ_some {s s' : List Char} {c : PatternChunk}
    (h : stepRule s = some (c, s')) (n : Nat) :
    stepRun (n + 1) s = stepRun n s' := by
  rw [stepRun, h]

theorem reach_stuck_shift {s s' : List Char} {c : PatternChunk}
    (h : stepRule s = some (c, s')) :
    (∃ n, stepRun n s ≠ [] ∧ stepRule (stepRun n s) = none) ↔
      (∃ n, stepRun n s' ≠ [] ∧ stepRule (stepRun n s') = none) := by
  constructor
  · rintro ⟨n, h1, h2⟩
    cases n with
    | zero =>
      rw [show stepRun 0 s = s from rfl] at h2
      rw [h] at h2
      exact absurd h2 (by simp)
    | succ m =>
      rw [stepRun_succ_some h] at h1 h2
      exact ⟨m, h1, h2⟩
  · rintro ⟨n, h1, h2⟩
    refine ⟨n + 1, ?_, ?_⟩
    · rw [stepRun_succ_some h]
      exact h1
    · rw [stepRun_succ_some h]
      exact h2

theorem loopF_none_iff : ∀ (f : Nat) (s : List Char) (acc : List PatternChunk)
    (bc : Nat), bc ≤ 3 → (2 ≤ bc → stepRule s = none) →
    s.length + 4 ≤ f + bc →
    (loopF f s acc bc = none ↔
      ∃ n, stepRun n s ≠ [] ∧ stepRule (stepRun n s) = none) := by
  intro f
  induction f with
  | zero =>
    intro s acc bc hbc hinv hf
    exact absurd hf (by omega)
  | succ f ih =>
    intro s acc bc hbc hinv hf
    rw [loopF]
    by_cases hs : s.isEmpty = true
    · have hsnil : s = [] := by
        cases s with
        | nil => rfl
        | cons a t => simp at hs
      rw [if_pos hs]
      constructor
      · intro hcontra
        exact absurd hcontra (by simp)
      · rintro ⟨n, h1, -⟩
        rw [hsnil, stepRun_nil] at h1
        exact absurd rfl h1
    · rw [if_neg hs]
      have hsne : s ≠ [] := by
        intro hnil
        rw [hnil] at hs
        exact hs rfl
      cases hstep : stepRule s with
      | some p =>
        obtain ⟨c, s'⟩ := p
        have hsh := stepRule_shrink hstep
        have hbc2 : bc ≤ 1 := by
          by_contra hgt
          have hn := hinv (by omega)
          rw [hn] at hstep
          exact absurd hstep (by simp)
        have hih := ih s' (acc ++ [c]) 1 (by omega) (by omega) (by omega)
        rw [hih]
        exact (reach_stuck_shift hstep).symm
      | none =>
        by_cases hbc2 : bc > 2
        · rw [if_pos hbc2]
          exact iff_of_true rfl ⟨0, hsne, hstep⟩
        · rw [if_neg hbc2]
          exact ih s acc (bc + 1) (by omega) (fun _ => hstep) (by omega)

theorem loopF_some_reach : ∀ (f : Nat) (s : List Char)
    (acc cs : List PatternChunk) (bc : Nat),
    loopF f s acc bc = some cs → ∃ n, stepRun n s = [] := by
  intro f
  induction f with
  | zero =>
    intro s acc cs bc h
    rw [loopF] at h
    exact absurd h (by simp)
  | succ f ih =>
    intro s acc cs bc h
    rw [loopF] at h
    by_cases hs : s.isEmpty = true
    · have hsnil : s = [] := by
        cases s with
        | nil => rfl
        | cons a t => simp at hs
      exact ⟨0, hsnil⟩
    · rw [if_neg hs] at h
      cases hstep : stepRule s with
      | some p =>
        obtain ⟨c, s'⟩ := p
        rw [hstep] at h
        obtain ⟨n, hn⟩ := ih s' (acc ++ [c]) cs 1 h
        refine ⟨n + 1, ?_⟩
        rw [stepRun_succ_some hstep]
        exact hn
      | none =>
        rw [hstep] at h
        by_cases hbc : bc > 2
        · rw [if_pos hbc] at h
          exact absurd h (by simp)
        · rw [if_neg hbc] at h
          exact ih s acc cs (bc + 1) h

/-- C8: transform raises the malformed-pattern failure exactly when the
rewrite loop reaches a cursor state that is non-empty and that no rule
consumes (the break counter then counts the repeated failed attempts of
the deterministic rules over the unchanged cursor up to its limit and
raises); transform never returns successfully with unconsumed cursor
text; the unclosed parenthesized list example fails. -/
theorem C8_transform_malformed :
    (∀ raw : String,
      (transform (some raw) = .error .malformedPattern ↔
        raw ≠ "" ∧ ∃ n, stepRun n (preprocess raw.toList) ≠ [] ∧
          stepRule (stepRun n (preprocess raw.toList)) = none))
    ∧ (∀ (raw : String) (cs : List PatternChunk),
        transform (some raw) = .ok cs →
        ∃ n, stepRun n (preprocess raw.toList) = [])
    ∧ transform (some "ABC123(A,BC") = .error .malformedPattern := by
  refine ⟨?_, ?_, by decide⟩
  · intro raw
    by_cases hraw : raw = ""
    · subst hraw
      simp only [transform, if_pos rfl]
      constructor
      · intro h
        exact absurd h (by simp)
      · rintro ⟨h, -⟩
        exact absurd rfl h
    · simp only [transform, if_neg hraw]
      have hiff := loopF_none_iff ((preprocess raw.toList).length + 5)
        (preprocess raw.toList) [] 0 (by omega) (by omega) (by omega)
      cases hl : loopF ((preprocess raw.toList).length + 5)
          (preprocess raw.toList) [] 0 with
      | some cs =>
        constructor
        · intro h
          exact absurd h (by simp)
        · rintro ⟨-, hst⟩
          have hnone := hiff.mpr hst
          rw [hl] at hnone
          exact absurd hnone (by simp)
      | none =>
        constructor
        · intro _
          exact ⟨hraw, hiff.mp hl⟩
        · intro _
          rfl
  · intro raw cs h
    by_cases hraw : raw = ""
    · rw [hraw] at h
      simp only [transform, if_pos rfl] at h
      exact absurd h (by simp)
    · simp only [transform, if_neg hraw] at h
      cases hl : loopF ((preprocess raw.toList).length + 5)
          (preprocess raw.toList) [] 0 with
      | some cs' =>
        exact loopF_some_reach _ _ _ _ _ hl
      | none =>
        rw [hl] at h
        exact absurd h (by simp)

theorem C8_transform_malformed_witness :
    transform (some "ABC") = .ok [⟨"ABC".toList, 3⟩] ∧
    ∃ n, stepRun n (preprocess "ABC".toList) = [] :=
  ⟨by decide, C8_transform_malformed.2.1 "ABC" [⟨"ABC".toList, 3⟩] (by decide)⟩

/-! ### The partial matcher (claims C1, C2, C3, C9, C10) -/

theorem reMatchQ_word_iff : ∀ {mn : List Char} (t : List Char),
    (∀ c ∈ mn, isWordChar c = true) →
    (reMatchQ mn t = true ↔ mn <+: t) := by
  intro mn
  induction mn with
  | nil =>
    intro t hw
    exact iff_of_true rfl List.nil_prefix
  | cons c q ih =>
    intro t hw
    have hcw : isWordChar c = true := hw c (by simp)
    have hlit : litSafeChar c = true := by simp [litSafeChar, hcw]
    simp only [reMatchQ]
    rw [if_pos hlit]
    cases t with
    | nil =>
      constructor
      · intro h
        exact absurd h (by simp)
      · intro h
        exact absurd (List.prefix_nil.mp h) (by simp)
    | cons d t' =>
      rw [List.cons_prefix_cons]
      constructor
      · intro h
        simp only [Bool.and_eq_true, beq_iff_eq] at h
        exact ⟨h.1, (ih t' fun x hx => hw x (by simp [hx])).mp h.2⟩
      · rintro ⟨rfl, h2⟩
        simp only [Bool.and_eq_true, beq_iff_eq]
        exact ⟨trivial, (ih t' fun x hx => hw x (by simp [hx])).mpr h2⟩

/-- C3 (amended): when the matcher reaches a fragment whose
non-negative min size exceeds the length of the remaining candidate
text and whose pattern is a pure literal of word characters, and the
remainder itself consists of word characters only, is_match returns,
as the final answer, exactly whether the remainder is a literal prefix
of that literal text.  (The source matches the remainder, used as a
regular expression, against the literal text; on word-only remainders
that is exactly the literal prefix test.) -/
theorem C3_literal_too_short (cs : List PatternChunk) (ch : PatternChunk)
    (mn : List Char)
    (hsz : (mn.length : Int) < ch.size)
    (hlit : ch.pattern ≠ [] ∧ ∀ c ∈ ch.pattern, isWordChar c = true)
    (hmn : ∀ c ∈ mn, isWordChar c = true) :
    isMatchLoop (ch :: cs) mn = decide (mn <+: ch.pattern) := by
  rw [isMatchLoop, if_pos hsz]
  have hpure : isPureWordPat ch.pattern = true := by
    rw [isPureWordPat]
    simp [isEmpty_false_of_ne_nil hlit.1, List.all_eq_true.mpr hlit.2]
  rw [if_pos hpure]
  by_cases h : mn <+: ch.pattern
  · rw [(reMatchQ_word_iff ch.pattern hmn).mpr h, decide_eq_true h]
  · rw [decide_eq_false h]
    cases hq : reMatchQ mn ch.pattern
    · rfl
    · exact absurd ((reMatchQ_word_iff ch.pattern hmn).mp hq) h

theorem C3_literal_too_short_witness :
    isMatchLoop [⟨"ABC".toList, 3⟩] ("AB".toList) =
      decide ("AB".toList <+: "ABC".toList) :=
  C3_literal_too_short [] ⟨"ABC".toList, 3⟩ ("AB".toList) (by decide)
    ⟨by decide, by decide⟩ (by decide)

/-- Counterexample to C3 as stated: is_match matches the remainder as a
regular expression against the literal text, so the remainder A-dot is
accepted against the compiled literal ABC although it is not a literal
prefix of it. -/
theorem C3_literal_too_short_cex :
    transform (some "ABC") = .ok [⟨"ABC".toList, 3⟩] ∧
    isMatchO [⟨"ABC".toList, 3⟩] (some ("A.".toList)) = true ∧
    ¬ ("A.".toList <+: "ABC".toList) :=
  ⟨by decide, by decide, by decide⟩

/-- C1 fails on the code: compiling the bare list ABC,DEF accepts the
candidate ABC via is_match but rejects its non-empty prefix AB, because
the too-short alternation branch slices the tail of each option off
instead of truncating each option to the remainder's length. -/
theorem C1_prefix_monotonicity_cex :
    transform (some "ABC,DEF") = .ok [⟨"(ABC|DEF)".toList, 3⟩] ∧
    isMatchO [⟨"(ABC|DEF)".toList, 3⟩] (some ("ABC".toList)) = true ∧
    ("AB".toList ≠ [] ∧ "AB".toList <+: "ABC".toList) ∧
    isMatchO [⟨"(ABC|DEF)".toList, 3⟩] (some ("AB".toList)) = false :=
  ⟨by decide, by decide, ⟨by decide, by decide⟩, by decide⟩

/-- C2 fails on the code: for the compiled alternation of options ABC
and DEF with min size 3 and remainder AB, the options truncated from
the start to the remainder's length are AB and DE, so the claim
requires a match; the code slices the final two characters off each
option instead (leaving A and D) and answers false. -/
theorem C2_alternation_truncation_cex :
    transform (some "ABC,DEF") = .ok [⟨"(ABC|DEF)".toList, 3⟩] ∧
    ("ABC".toList).take ("AB".toList).length = "AB".toList ∧
    isMatchO [⟨"(ABC|DEF)".toList, 3⟩] (some ("AB".toList)) = false :=
  ⟨by decide, by decide, by decide⟩

/-- C9: is_match is total on the embedding (every fallible regex
operation of the source sits inside a bare except that turns failures
into negative match results): a missing or empty candidate answers
false before the loop runs, and every other candidate receives a
boolean verdict without error. -/
theorem C9_is_match_total (cs : List PatternChunk) :
    isMatchO cs none = false ∧ isMatchO cs (some []) = false ∧
    ∀ mn : List Char,
      isMatchO cs (some mn) = true ∨ isMatchO cs (some mn) = false := by
  refine ⟨rfl, rfl, fun mn => ?_⟩
  cases h : isMatchO cs (some mn)
  · exact Or.inr rfl
  · exact Or.inl rfl

/-- C10: is_match mutates nothing: the state-passing embedding of the
method (which reads the chunk tuple and assigns no instance attribute)
returns the state unchanged, so the chunks, the pattern text and the
stored model number after a call equal their values before it, and a
repeated call with the same candidate on the resulting state returns
the same boolean. -/
theorem C10_is_match_frame (st : MnrState) (c : Option (List Char)) :
    (isMatchS st c).2.chunks = st.chunks ∧
    (isMatchS st c).2.pattern = st.pattern ∧
    (isMatchS st c).2.model_number = st.model_number ∧
    (isMatchS ((isMatchS st c).2) c).1 = (isMatchS st c).1 :=
  ⟨rfl, rfl, rfl, rfl⟩
